import Mathlib

/-!
Shallow embedding of the suffix-fold repository (a phrase trie over token
sequences plus a diagonal index enumerator) and proofs of the specification
claims about it.

Rust strings are modelled as lists of characters; Rust's HashMap of children
is modelled as an association list in insertion order (HashMap iteration
order is unspecified, so every claim about map contents is stated in an
order-insensitive way: lookups, membership, permutation).  Character
classification functions (is_alphabetic, to_lowercase, whitespace) are the
ASCII fragments of their Unicode Rust counterparts, which coincide on the
ASCII inputs the specification and claims exercise.
-/

namespace SuffixFold

/-- Rust String / str, modelled as a list of characters. -/
abbrev Str := List Char

/-- Delimiter set used by split_corpus in src/string_handlers.rs: the
characters matched by split_terminator. -/
def isDelim (c : Char) : Bool :=
  c = '.' || c = '!' || c = '?' || c = ';'

/-- ASCII whitespace test, the fragment of Rust whitespace classification that
the corpus inputs exercise (space, tab, newline, carriage return). -/
def isWhitespaceChar (c : Char) : Bool :=
  c = ' ' || c = '\t' || c = '\n' || c = '\r'

/-- Core of splitting a character list at every character satisfying p: returns
the first segment and the remaining segments. -/
def splitOnPCore (p : Char → Bool) : Str → Str × List Str
  | [] => ([], [])
  | c :: cs =>
    let r := splitOnPCore p cs
    if p c then ([], r.1 :: r.2) else (c :: r.1, r.2)

/-- Rust str::split on a character predicate: the list of segments between
delimiter occurrences (always at least one segment, possibly empty). -/
def splitOnP (p : Char → Bool) (s : Str) : List Str :=
  (splitOnPCore p s).1 :: (splitOnPCore p s).2

/-- Rust str::split_terminator on a character predicate: like split, except
that a final empty segment (arising when the string ends with a delimiter,
or from the empty string) is skipped. -/
def split_terminator (p : Char → Bool) (s : Str) : List Str :=
  let segs := splitOnP p s
  if segs.getLast? = some [] then segs.dropLast else segs

/-- Rust str::trim (ASCII fragment): removes leading and trailing whitespace. -/
def trim (s : Str) : Str :=
  ((s.dropWhile isWhitespaceChar).reverse.dropWhile isWhitespaceChar).reverse

/-- Rust str::split_ascii_whitespace: the non-empty segments between
whitespace characters. -/
def split_ascii_whitespace (s : Str) : List Str :=
  (splitOnP isWhitespaceChar s).filter (fun w => !w.isEmpty)

/-- Rust Vec::join(" ") on a list of words. -/
def joinWords (ws : List Str) : Str :=
  List.intercalate [' '] ws

/-- Embeds split_corpus from src/string_handlers.rs: split the corpus on the
delimiters, discard empty segments, trim each segment, then normalize each
sentence word by word (keep alphabetic characters, lowercase, rejoin with
single spaces). -/
def split_corpus (x : Str) : List Str :=
  (((split_terminator isDelim x).filter (fun s => !s.isEmpty)).map trim).map
    (fun sentence =>
      joinWords ((split_ascii_whitespace sentence).map
        (fun w => (w.filter Char.isAlpha).map Char.toLower)))

/-- Embeds split_sentence from src/string_handlers.rs: split a sentence on
ASCII whitespace into words. -/
def split_sentence (sentence : Str) : List Str :=
  split_ascii_whitespace sentence

/-- Embeds suffixes from src/string_handlers.rs: for each index i from 0 to
the length, the slice of the input from i to the end. -/
def suffixes (xs : List Str) : List (List Str) :=
  (List.range xs.length).map (fun i => xs.drop i)

/-- Embeds the Tree type of src/lib.rs and src/tree.rs: a name together with
a children map from token to child.  The HashMap is modelled as an
association list in insertion order. -/
inductive Tree where
  | node (name : Str) (children : List (Str × Tree))

/-- Field accessor for the name of a tree node. -/
def Tree.name : Tree → Str
  | .node n _ => n

/-- Field accessor for the children map of a tree node. -/
def Tree.children : Tree → List (Str × Tree)
  | .node _ cs => cs

/-- Embeds Tree::new: a childless node with the given name. -/
def Tree.new (n : Str) : Tree :=
  Tree.node n []

/-- Embeds Tree::default: the root node, named by the fixed sentinel. -/
def Tree.defaultTree : Tree :=
  Tree.new "root".toList

/-- Association-list lookup, modelling HashMap::get. -/
def assocLookup {β : Type} : List (Str × β) → Str → Option β
  | [], _ => none
  | (k', v) :: rest, k => if k' = k then some v else assocLookup rest k

/-- Association-list insert-or-update, modelling the effect of the HashMap
entry API: replaces the value at an existing key, or appends a fresh binding. -/
def assocUpdate {β : Type} : List (Str × β) → Str → β → List (Str × β)
  | [], k, v => [(k, v)]
  | (k', v') :: rest, k, v =>
    if k' = k then (k, v) :: rest else (k', v') :: assocUpdate rest k v

/-- Embeds Tree::add_phrase: walk from the node, following or creating one
child per token in order (children.entry(subkey).or_insert_with(Tree::new)). -/
def Tree.add_phrase : Tree → List Str → Tree
  | t, [] => t
  | t, k :: ks =>
    Tree.node t.name
      (assocUpdate t.children k
        (Tree.add_phrase ((assocLookup t.children k).getD (Tree.new k)) ks))

/-- Embeds Tree::children_names: the keys of the children map. -/
def Tree.children_names (t : Tree) : List Str :=
  t.children.map (fun c => c.1)

/-- Embeds Tree::step_down: the child with the given name, if present. -/
def Tree.step_down (t : Tree) (k : Str) : Option Tree :=
  assocLookup t.children k

/-- Embeds Tree::names_at_path: follow step_down once per token,
short-circuiting to none on a missing child; on success the children names
of the reached node. -/
def Tree.names_at_path : Tree → List Str → Option (List Str)
  | t, [] => some t.children_names
  | t, k :: ks => (t.step_down k).bind (fun u => u.names_at_path ks)

/-- Body of the inner loop of Tree::from_corpus: ingest every suffix of one
sentence into the tree. -/
def ingest_sentence (t : Tree) (sentence : Str) : Tree :=
  (suffixes (split_sentence sentence)).foldl Tree.add_phrase t

/-- Embeds Tree::from_corpus: start from the default root, split the corpus
into sentences, and ingest every suffix of every sentence as a phrase. -/
def from_corpus (corpus : Str) : Tree :=
  (split_corpus corpus).foldl ingest_sentence Tree.defaultTree

mutual

/-- Embeds get_depth from src/lib.rs (Tree::get_depth in src/tree.rs): 0 for
a childless node, otherwise 1 plus the maximum depth over the children. -/
def get_depth : Tree → Nat
  | .node _ cs => if cs.isEmpty then 0 else 1 + get_depth_children cs

/-- Maximum of get_depth over the values of a children list (0 when empty),
modelling children.values().map(get_depth).max().unwrap_or_default(). -/
def get_depth_children : List (Str × Tree) → Nat
  | [] => 0
  | c :: rest => max (get_depth c.2) (get_depth_children rest)

end

/-- Embeds Tree::span_map: each immediate child name mapped to the number of
that child's own immediate children.  The getD default stands for the
.expect panic, unreachable because the names iterated are exactly the
present keys. -/
def Tree.span_map (t : Tree) : List (Str × Nat) :=
  t.children_names.map
    (fun n => (n, ((t.step_down n).map (fun u => u.children_names.length)).getD 0))

/-- Embeds Tree::depth_map: each immediate child name mapped to the recursive
depth of that child's subtree.  The getD default stands for the .expect
panic, unreachable because the names iterated are exactly the present keys. -/
def Tree.depth_map (t : Tree) : List (Str × Nat) :=
  t.children_names.map
    (fun n => (n, ((t.step_down n).map get_depth).getD 0))

mutual

/-- Structural invariant of the tree model: at every node the children keys
are pairwise distinct (automatic for the Rust HashMap) and each key equals
the name of the child stored under it. -/
def wellFormed : Tree → Bool
  | .node _ cs => decide ((cs.map (fun c => c.1)).Pairwise (· ≠ ·)) && wfChildren cs

/-- Conjunction of the key-matches-name condition and the recursive invariant
over one children list. -/
def wfChildren : List (Str × Tree) → Bool
  | [] => true
  | (k, c) :: rest => decide (c.name = k) && wellFormed c && wfChildren rest

end

/-- Embeds partial_cartesian from src/rule.rs (the flat_map written out as a
recursion; the Rust name begins with a Lean keyword, hence the shortened
name): extend every partial combination by every element of b. -/
def part_cartesian {α : Type} : List (List α) → List α → List (List α)
  | [], _ => []
  | xs :: rest, b => b.map (fun y => xs ++ [y]) ++ part_cartesian rest b

/-- Embeds cartesian_product from src/rule.rs: empty input gives an empty
result; otherwise seed with the singletons of the first list and fold
partial_cartesian over the remaining lists. -/
def cartesian_product {α : Type} : List (List α) → List (List α)
  | [] => []
  | first :: rest => rest.foldl part_cartesian (first.map (fun n => [n]))

/-- Embeds index_array from src/rule.rs: the cartesian product of the ranges
0..d over the dimensions d. -/
def index_array (dims : List Nat) : List (List Nat) :=
  cartesian_product (dims.map (fun x => List.range x))

/-- The coordinate-walk part of the order_by_distance comparator: first
differing coordinate of the zipped tuples decides; none models the
unreachable (panicking) fall-through reached only when the zipped
coordinates are all equal. -/
def zipCmp : List Nat → List Nat → Option Ordering
  | x :: a, y :: b =>
    if x > y then some Ordering.gt
    else if x < y then some Ordering.lt
    else zipCmp a b
  | _, _ => none

/-- Embeds the comparator closure of order_by_distance in src/rule.rs:
compare coordinate sums first, then walk the zipped coordinates; none models
the unreachable panic branch. -/
def cmpTuple (a b : List Nat) : Option Ordering :=
  if a.sum > b.sum then some Ordering.gt
  else if a.sum < b.sum then some Ordering.lt
  else zipCmp a b

/-- The weak-order form of the comparator used for sorting: a is not strictly
greater than b.  On the unreachable panic case (none) this says true; the
claims about order_by_distance carry hypotheses under which that case never
arises between compared elements. -/
def tupleLE (a b : List Nat) : Bool :=
  match cmpTuple a b with
  | some Ordering.gt => false
  | _ => true

/-- Embeds order_by_distance from src/rule.rs.  Rust's slice sort_by is
modelled by insertion sort with the comparator's not-Greater relation: on
the pairwise-distinct inputs considered by the claims the comparator is a
strict total order, so every comparison sort produces the same output and
stability is immaterial. -/
def order_by_distance (indices : List (List Nat)) : List (List Nat) :=
  indices.insertionSort (fun a b => tupleLE a b = true)

end SuffixFold

namespace SuffixFold

theorem Tree.name_node (n : Str) (cs : List (Str × Tree)) : (Tree.node n cs).name = n := rfl

theorem Tree.children_node (n : Str) (cs : List (Str × Tree)) :
    (Tree.node n cs).children = cs := rfl

theorem assocLookup_nil {β : Type} (k : Str) : assocLookup ([] : List (Str × β)) k = none := rfl

theorem assocLookup_cons {β : Type} (k1 : Str) (v1 : β) (rest : List (Str × β)) (k : Str) :
    assocLookup ((k1, v1) :: rest) k = if k1 = k then some v1 else assocLookup rest k := rfl

theorem assocUpdate_nil {β : Type} (k : Str) (v : β) :
    assocUpdate ([] : List (Str × β)) k v = [(k, v)] := rfl

theorem assocUpdate_cons {β : Type} (k1 : Str) (v1 : β) (rest : List (Str × β)) (k : Str) (v : β) :
    assocUpdate ((k1, v1) :: rest) k v =
      if k1 = k then (k, v) :: rest else (k1, v1) :: assocUpdate rest k v := rfl

theorem assocLookup_assocUpdate_self {β : Type} (cs : List (Str × β)) (k : Str) (v : β) :
    assocLookup (assocUpdate cs k v) k = some v := by
  induction cs with
  | nil => rw [assocUpdate_nil, assocLookup_cons, if_pos rfl]
  | cons c rest ih =>
    obtain ⟨k1, v1⟩ := c
    rw [assocUpdate_cons]
    by_cases h : k1 = k
    · rw [if_pos h, assocLookup_cons, if_pos rfl]
    · rw [if_neg h, assocLookup_cons, if_neg h, ih]

theorem assocUpdate_assocUpdate {β : Type} (cs : List (Str × β)) (k : Str) (v w : β) :
    assocUpdate (assocUpdate cs k v) k w = assocUpdate cs k w := by
  induction cs with
  | nil => rw [assocUpdate_nil, assocUpdate_cons, if_pos rfl, assocUpdate_nil]
  | cons c rest ih =>
    obtain ⟨k1, v1⟩ := c
    rw [assocUpdate_cons]
    by_cases h : k1 = k
    · rw [if_pos h, assocUpdate_cons, if_pos rfl, assocUpdate_cons, if_pos h]
    · rw [if_neg h, assocUpdate_cons, if_neg h, ih, assocUpdate_cons, if_neg h]

theorem mem_keys_of_assocLookup {β : Type} {cs : List (Str × β)} {k : Str} {v : β}
    (h : assocLookup cs k = some v) : k ∈ cs.map (fun c => c.1) := by
  induction cs with
  | nil => exact absurd h (by rw [assocLookup_nil]; exact Option.noConfusion)
  | cons c rest ih =>
    obtain ⟨k1, v1⟩ := c
    rw [assocLookup_cons] at h
    by_cases hk : k1 = k
    · subst hk
      exact List.mem_cons_self ..
    · rw [if_neg hk] at h
      exact List.mem_cons_of_mem _ (ih h)

theorem assocLookup_map_diag {β : Type} (names : List Str) (f : Str → β) {k : Str}
    (h : k ∈ names) : assocLookup (names.map (fun n => (n, f n))) k = some (f k) := by
  induction names with
  | nil => exact absurd h (List.not_mem_nil _)
  | cons n rest ih =>
    rw [List.map_cons, assocLookup_cons]
    by_cases hk : n = k
    · subst hk
      rw [if_pos rfl]
    · rw [if_neg hk]
      rcases List.mem_cons.mp h with h1 | h1
      · exact absurd h1.symm hk
      · exact ih h1

theorem mem_keys_assocUpdate {β : Type} (cs : List (Str × β)) (k : Str) (v : β) :
    k ∈ (assocUpdate cs k v).map (fun c => c.1) := by
  induction cs with
  | nil => rw [assocUpdate_nil]; exact List.mem_cons_self ..
  | cons c rest ih =>
    obtain ⟨k1, v1⟩ := c
    rw [assocUpdate_cons]
    by_cases h : k1 = k
    · rw [if_pos h]
      exact List.mem_cons_self ..
    · rw [if_neg h, List.map_cons]
      exact List.mem_cons_of_mem _ ih

theorem Tree.add_phrase_name (t : Tree) (p : List Str) : (t.add_phrase p).name = t.name := by
  cases p <;> rfl

/-- C5: applying add_phrase with the same token sequence twice yields the same
structure as applying it once: re-adding an existing path creates no new
nodes and leaves the structure unchanged. -/
theorem add_phrase_idempotent (t : Tree) (p : List Str) :
    (t.add_phrase p).add_phrase p = t.add_phrase p := by
  induction p generalizing t with
  | nil => rfl
  | cons k ks ih =>
    show Tree.add_phrase (Tree.node t.name (assocUpdate t.children k _)) (k :: ks) = _
    simp only [Tree.add_phrase, Tree.name_node, Tree.children_node,
      assocLookup_assocUpdate_self, Option.getD_some, ih, assocUpdate_assocUpdate]

theorem names_at_path_add_phrase_concat (ks : List Str) :
    ∀ (t : Tree) (x : Str),
      ∃ l, (t.add_phrase (ks ++ [x])).names_at_path ks = some l ∧ x ∈ l := by
  induction ks with
  | nil =>
    intro t x
    refine ⟨(t.add_phrase [x]).children_names, rfl, ?_⟩
    show x ∈ (Tree.node t.name (assocUpdate t.children x _)).children_names
    show x ∈ (assocUpdate t.children x _).map (fun c => c.1)
    exact mem_keys_assocUpdate t.children x _
  | cons k ks ih =>
    intro t x
    obtain ⟨l, hl, hx⟩ := ih ((assocLookup t.children k).getD (Tree.new k)) x
    refine ⟨l, ?_, hx⟩
    show Tree.names_at_path (Tree.node t.name (assocUpdate t.children k _)) (k :: ks) = some l
    simp only [Tree.names_at_path, Tree.step_down, Tree.children_node,
      assocLookup_assocUpdate_self, Option.bind_some]
    exact hl

/-- C6: for every non-empty phrase p added to an empty trie, looking up the
path of all tokens but the last succeeds and the returned name sequence
contains the last token. -/
theorem names_at_path_contains_getLast (p : List Str) (h : p ≠ []) :
    ∃ l, (Tree.defaultTree.add_phrase p).names_at_path p.dropLast = some l ∧
      p.getLast h ∈ l := by
  obtain ⟨l, hl, hx⟩ :=
    names_at_path_add_phrase_concat p.dropLast Tree.defaultTree (p.getLast h)
  rw [List.dropLast_append_getLast h] at hl
  exact ⟨l, hl, hx⟩

/-- Witness for C6 at the concrete phrase [a, b]. -/
theorem names_at_path_contains_getLast_witness :
    ∃ l, (Tree.defaultTree.add_phrase ["a".toList, "b".toList]).names_at_path
        (["a".toList, "b".toList] : List Str).dropLast = some l ∧
      (["a".toList, "b".toList] : List Str).getLast (by decide) ∈ l :=
  names_at_path_contains_getLast ["a".toList, "b".toList] (by decide)

end SuffixFold

namespace SuffixFold

theorem span_map_lookup {t : Tree} {k : Str} {u : Tree} (h : t.step_down k = some u) :
    assocLookup t.span_map k = some u.children_names.length := by
  have hk : k ∈ t.children_names := mem_keys_of_assocLookup h
  rw [Tree.span_map, assocLookup_map_diag t.children_names _ hk, h]
  rfl

theorem depth_map_lookup {t : Tree} {k : Str} {u : Tree} (h : t.step_down k = some u) :
    assocLookup t.depth_map k = some (get_depth u) := by
  have hk : k ∈ t.children_names := mem_keys_of_assocLookup h
  rw [Tree.depth_map, assocLookup_map_diag t.children_names _ hk, h]
  rfl

/-- C3: span_map maps each immediate child name to that child's number of
immediate children while depth_map maps it to the recursive height of the
child's subtree (0 when childless, else 1 plus the maximum over children);
in particular a childless child scores 0 on both maps, and on the chain
c, d, e the child c has depth 2 but span 1. -/
theorem depth_span_asymmetry :
    (∀ (t : Tree) (k : Str) (u : Tree), t.step_down k = some u →
        assocLookup t.span_map k = some u.children_names.length ∧
        assocLookup t.depth_map k = some (get_depth u))
    ∧ (∀ u : Tree, u.children = [] → get_depth u = 0)
    ∧ (∀ u : Tree, u.children ≠ [] → get_depth u = 1 + get_depth_children u.children)
    ∧ (assocLookup (Tree.defaultTree.add_phrase ["c".toList, "d".toList, "e".toList]).depth_map
          "c".toList = some 2
      ∧ assocLookup (Tree.defaultTree.add_phrase ["c".toList, "d".toList, "e".toList]).span_map
          "c".toList = some 1)
    ∧ (assocLookup (Tree.defaultTree.add_phrase ["c".toList]).span_map "c".toList = some 0
      ∧ assocLookup (Tree.defaultTree.add_phrase ["c".toList]).depth_map "c".toList = some 0) := by
  refine ⟨fun t k u h => ⟨span_map_lookup h, depth_map_lookup h⟩, ?_, ?_,
    ⟨by decide, by decide⟩, ⟨by decide, by decide⟩⟩
  · intro u h
    obtain ⟨n, cs⟩ := u
    rw [Tree.children_node] at h
    subst h
    rfl
  · intro u h
    obtain ⟨n, cs⟩ := u
    rw [Tree.children_node] at h
    cases cs with
    | nil => exact absurd rfl h
    | cons c rest => rfl

/-- Witness for C3 at a concrete tree with one child. -/
theorem depth_span_asymmetry_witness :
    assocLookup (Tree.defaultTree.add_phrase ["a".toList]).span_map "a".toList =
        some (Tree.new "a".toList).children_names.length
    ∧ assocLookup (Tree.defaultTree.add_phrase ["a".toList]).depth_map "a".toList =
        some (get_depth (Tree.new "a".toList)) :=
  depth_span_asymmetry.1 (Tree.defaultTree.add_phrase ["a".toList]) "a".toList
    (Tree.new "a".toList) rfl

theorem wellFormed_node (n : Str) (cs : List (Str × Tree)) :
    wellFormed (Tree.node n cs) =
      (decide ((cs.map (fun c => c.1)).Pairwise (· ≠ ·)) && wfChildren cs) := rfl

theorem wfChildren_nil : wfChildren [] = true := rfl

theorem wfChildren_cons (k : Str) (c : Tree) (rest : List (Str × Tree)) :
    wfChildren ((k, c) :: rest) =
      (decide (c.name = k) && wellFormed c && wfChildren rest) := rfl

theorem wellFormed_new (n : Str) : wellFormed (Tree.new n) = true := rfl

theorem wfChildren_assocLookup {cs : List (Str × Tree)} {k : Str} {c : Tree}
    (hwf : wfChildren cs = true) (h : assocLookup cs k = some c) :
    c.name = k ∧ wellFormed c = true := by
  induction cs with
  | nil => rw [assocLookup_nil] at h; exact Option.noConfusion h
  | cons d rest ih =>
    obtain ⟨k1, c1⟩ := d
    rw [wfChildren_cons, Bool.and_eq_true, Bool.and_eq_true, decide_eq_true_eq] at hwf
    rw [assocLookup_cons] at h
    by_cases hk : k1 = k
    · rw [if_pos hk] at h
      injection h with h2
      subst h2
      exact ⟨hwf.1.1.trans hk, hwf.1.2⟩
    · rw [if_neg hk] at h
      exact ih hwf.2 h

theorem wfChildren_assocUpdate {cs : List (Str × Tree)} {k : Str} {v : Tree}
    (hwf : wfChildren cs = true) (hv : wellFormed v = true) (hn : v.name = k) :
    wfChildren (assocUpdate cs k v) = true := by
  induction cs with
  | nil =>
    rw [assocUpdate_nil, wfChildren_cons, wfChildren_nil, hv, hn]
    simp
  | cons d rest ih =>
    obtain ⟨k1, c1⟩ := d
    rw [wfChildren_cons, Bool.and_eq_true, Bool.and_eq_true] at hwf
    rw [assocUpdate_cons]
    by_cases hk : k1 = k
    · rw [if_pos hk, wfChildren_cons, hv, hn]
      simpa using hwf.2
    · rw [if_neg hk, wfChildren_cons, hwf.1.1, hwf.1.2, ih hwf.2]
      rfl

theorem keys_assocUpdate_of_mem {β : Type} {cs : List (Str × β)} {k : Str} (v : β)
    (h : k ∈ cs.map (fun c => c.1)) :
    (assocUpdate cs k v).map (fun c => c.1) = cs.map (fun c => c.1) := by
  induction cs with
  | nil => simp at h
  | cons d rest ih =>
    obtain ⟨k1, v1⟩ := d
    rw [assocUpdate_cons]
    by_cases hk : k1 = k
    · rw [if_pos hk, List.map_cons, List.map_cons]
      simp [hk]
    · rw [List.map_cons] at h
      rcases List.mem_cons.mp h with h1 | h1
      · exact absurd h1.symm hk
      · rw [if_neg hk, List.map_cons, List.map_cons, ih h1]

theorem keys_assocUpdate_of_not_mem {β : Type} {cs : List (Str × β)} {k : Str} (v : β)
    (h : k ∉ cs.map (fun c => c.1)) :
    (assocUpdate cs k v).map (fun c => c.1) = cs.map (fun c => c.1) ++ [k] := by
  induction cs with
  | nil => rfl
  | cons d rest ih =>
    obtain ⟨k1, v1⟩ := d
    rw [List.map_cons] at h
    have hk : k1 ≠ k := fun he => h (he ▸ List.mem_cons_self ..)
    have hr : k ∉ rest.map (fun c => c.1) := fun hm => h (List.mem_cons_of_mem _ hm)
    rw [assocUpdate_cons, if_neg hk, List.map_cons, List.map_cons, ih hr,
      List.cons_append]

theorem wellFormed_add_phrase {t : Tree} (p : List Str) (h : wellFormed t = true) :
    wellFormed (t.add_phrase p) = true := by
  induction p generalizing t with
  | nil => exact h
  | cons k ks ih =>
    obtain ⟨n, cs⟩ := t
    rw [wellFormed_node, Bool.and_eq_true, decide_eq_true_eq] at h
    obtain ⟨hnd, hwf⟩ := h
    have hv : wellFormed (Tree.add_phrase ((assocLookup cs k).getD (Tree.new k)) ks) = true ∧
        (Tree.add_phrase ((assocLookup cs k).getD (Tree.new k)) ks).name = k := by
      cases hc : assocLookup cs k with
      | none =>
        rw [Option.getD_none]
        exact ⟨ih (wellFormed_new k), by rw [Tree.add_phrase_name]; rfl⟩
      | some c =>
        obtain ⟨hcn, hcw⟩ := wfChildren_assocLookup hwf hc
        rw [Option.getD_some]
        exact ⟨ih hcw, by rw [Tree.add_phrase_name]; exact hcn⟩
    simp only [Tree.add_phrase, Tree.name_node, Tree.children_node]
    rw [wellFormed_node, Bool.and_eq_true, decide_eq_true_eq]
    refine ⟨?_, wfChildren_assocUpdate hwf hv.1 hv.2⟩
    by_cases hk : k ∈ cs.map (fun c => c.1)
    · rw [keys_assocUpdate_of_mem _ hk]
      exact hnd
    · rw [keys_assocUpdate_of_not_mem _ hk, List.pairwise_append]
      refine ⟨hnd, List.pairwise_singleton .., ?_⟩
      intro a ha b hb
      rw [List.mem_singleton] at hb
      subst hb
      exact fun he => hk (he ▸ ha)

theorem wellFormed_foldl_add_phrase (l : List (List Str)) :
    ∀ t : Tree, wellFormed t = true → wellFormed (l.foldl Tree.add_phrase t) = true := by
  induction l with
  | nil => exact fun t h => h
  | cons p rest ih => exact fun t h => ih _ (wellFormed_add_phrase p h)

theorem wellFormed_foldl_ingest (ss : List Str) :
    ∀ t : Tree, wellFormed t = true → wellFormed (ss.foldl ingest_sentence t) = true := by
  induction ss with
  | nil => exact fun t h => h
  | cons s rest ih => exact fun t h => ih _ (wellFormed_foldl_add_phrase _ _ h)

/-- C7: new, default, add_phrase and from_corpus all preserve the invariant
that at every node each child key equals that child's name field and no two
children share a name. -/
theorem trie_children_key_invariant :
    wellFormed Tree.defaultTree = true
    ∧ (∀ n : Str, wellFormed (Tree.new n) = true)
    ∧ (∀ (t : Tree) (p : List Str), wellFormed t = true → wellFormed (t.add_phrase p) = true)
    ∧ (∀ c : Str, wellFormed (from_corpus c) = true)
    ∧ (∀ t : Tree, wellFormed t = true →
        t.children_names.Nodup ∧
          ∀ (k : Str) (u : Tree), t.step_down k = some u → u.name = k) := by
  refine ⟨wellFormed_new _, wellFormed_new, fun t p h => wellFormed_add_phrase p h,
    fun c => wellFormed_foldl_ingest _ _ (wellFormed_new _), fun t h => ?_⟩
  obtain ⟨n, cs⟩ := t
  rw [wellFormed_node, Bool.and_eq_true, decide_eq_true_eq] at h
  exact ⟨h.1, fun k u hs => (wfChildren_assocLookup h.2 hs).1⟩

/-- Witness for C7: the preservation part applied to a concrete phrase on the
default root. -/
theorem trie_children_key_invariant_witness :
    wellFormed (Tree.defaultTree.add_phrase ["a".toList, "b".toList]) = true :=
  trie_children_key_invariant.2.2.1 Tree.defaultTree ["a".toList, "b".toList] (by decide)

end SuffixFold

namespace SuffixFold

theorem filter_split_terminator (p : Char → Bool) (x : Str) :
    (split_terminator p x).filter (fun s => !s.isEmpty) =
      (splitOnP p x).filter (fun s => !s.isEmpty) := by
  show (if (splitOnP p x).getLast? = some [] then (splitOnP p x).dropLast
      else splitOnP p x).filter (fun s => !s.isEmpty) = _
  by_cases h : (splitOnP p x).getLast? = some []
  · rw [if_pos h]
    have hne : splitOnP p x ≠ [] := List.cons_ne_nil _ _
    have hl : (splitOnP p x).getLast hne = [] := by
      have h2 := List.getLast?_eq_getLast (splitOnP p x) hne
      rw [h] at h2
      exact (Option.some_inj.mp h2).symm
    conv_rhs => rw [← List.dropLast_append_getLast hne]
    rw [List.filter_append, hl]
    simp
  · rw [if_neg h]

/-- Spec-side definition, following the wording of the Tokenizer contract:
remove every character that is not alphabetic from a word, then lowercase
the remainder. -/
def specNormalizeWord (w : Str) : Str :=
  (w.filter Char.isAlpha).map Char.toLower

/-- Spec-side definition, following the wording of the Tokenizer contract:
split a sentence on ASCII whitespace, normalize each word, and rejoin with
single spaces. -/
def specCleanSentence (s : Str) : Str :=
  joinWords ((split_ascii_whitespace s).map specNormalizeWord)

/-- C4: split_corpus splits on the delimiters, discards empty segments, trims
each remaining segment, and normalizes it word by word (strip non-alphabetic
characters, lowercase, rejoin with single spaces); in particular on the
corpus from the spec it returns exactly the four cleaned sentences. -/
theorem split_corpus_spec :
    (∀ x : Str, split_corpus x =
        ((splitOnP isDelim x).filter (fun s => !s.isEmpty)).map
          (fun s => specCleanSentence (trim s)))
    ∧ split_corpus "a b! c d. e, f? g: h;".toList =
        ["a b".toList, "c d".toList, "e f".toList, "g h".toList] := by
  refine ⟨fun x => ?_, by decide⟩
  show (((split_terminator isDelim x).filter (fun s => !s.isEmpty)).map trim).map _ = _
  rw [List.map_map, filter_split_terminator]
  rfl

/-- C10: a whitespace-only delimiter segment passes the emptiness filter (it
runs before trimming) and surfaces as an empty cleaned sentence; an empty
sentence has no words and no suffixes, so ingesting it is a no-op, and a
corpus with whitespace-only segments builds the same trie as the corpus
without them. -/
theorem whitespace_only_segments :
    split_corpus "a b. . c".toList = ["a b".toList, [], "c".toList]
    ∧ suffixes (split_sentence []) = []
    ∧ (∀ t : Tree, ingest_sentence t [] = t)
    ∧ (∀ (t : Tree) (ss : List Str),
        ss.foldl ingest_sentence t =
          (ss.filter (fun s => !s.isEmpty)).foldl ingest_sentence t)
    ∧ from_corpus "a b. . c".toList = from_corpus "a b. c".toList := by
  refine ⟨by decide, rfl, fun t => rfl, ?_, rfl⟩
  intro t ss
  induction ss generalizing t with
  | nil => rfl
  | cons s rest ih =>
    by_cases h : s = []
    · subst h
      rw [List.foldl_cons, List.filter_cons, if_neg (by decide)]
      exact ih t
    · have hcond : (!s.isEmpty) = true := by simp [List.isEmpty_iff, h]
      rw [List.foldl_cons, List.filter_cons, if_pos hcond, List.foldl_cons]
      exact ih (ingest_sentence t s)

/-- C1: building the trie from the corpus of the three sentences a b c,
a b d, a b e, the lookup of the path a, b is present and returns, as a set,
exactly the tokens c, d, e; and the span map of the root assigns 3 to b. -/
theorem end_to_end_corpus :
    ((from_corpus "a b c. a b d. a b e".toList).names_at_path
        ["a".toList, "b".toList]).isSome = true
    ∧ (∀ x : Str,
        x ∈ ((from_corpus "a b c. a b d. a b e".toList).names_at_path
          ["a".toList, "b".toList]).getD [] ↔
        x ∈ ["c".toList, "d".toList, "e".toList])
    ∧ assocLookup ((from_corpus "a b c. a b d. a b e".toList).span_map) "b".toList =
        some 3 := by
  have h : ((from_corpus "a b c. a b d. a b e".toList).names_at_path
      ["a".toList, "b".toList]).getD [] = ["c".toList, "d".toList, "e".toList] := by decide
  exact ⟨by decide, fun x => by rw [h], by decide⟩

end SuffixFold

namespace SuffixFold

theorem mem_part_cartesian {α : Type} {a : List (List α)} {b : List α} {l : List α} :
    l ∈ part_cartesian a b ↔ ∃ q y, q ∈ a ∧ y ∈ b ∧ l = q ++ [y] := by
  induction a with
  | nil => simp [part_cartesian]
  | cons xs rest ih =>
    rw [show part_cartesian (xs :: rest) b =
      b.map (fun y => xs ++ [y]) ++ part_cartesian rest b from rfl]
    rw [List.mem_append, List.mem_map, ih]
    constructor
    · rintro (⟨y, hy, rfl⟩ | ⟨q, y, hq, hy, rfl⟩)
      · exact ⟨xs, y, List.mem_cons_self _ _, hy, rfl⟩
      · exact ⟨q, y, List.mem_cons_of_mem _ hq, hy, rfl⟩
    · rintro ⟨q, y, hq, hy, rfl⟩
      rcases List.mem_cons.mp hq with rfl | hq2
      · exact Or.inl ⟨y, hy, rfl⟩
      · exact Or.inr ⟨q, y, hq2, hy, rfl⟩

theorem mem_foldl_part_cartesian {α : Type} (Ls : List (List α)) :
    ∀ (init : List (List α)) (l : List α),
      l ∈ Ls.foldl part_cartesian init ↔
        ∃ q t, q ∈ init ∧ List.Forall₂ (fun x A => x ∈ A) t Ls ∧ l = q ++ t := by
  induction Ls with
  | nil =>
    intro init l
    simp [List.forall₂_nil_right_iff]
  | cons B Ls ih =>
    intro init l
    rw [List.foldl_cons, ih]
    constructor
    · rintro ⟨q1, t, hq1, ht, rfl⟩
      rcases mem_part_cartesian.mp hq1 with ⟨q, y, hq, hy, rfl⟩
      exact ⟨q, y :: t, hq, List.Forall₂.cons hy ht, by simp⟩
    · rintro ⟨q, t, hq, ht, rfl⟩
      rcases List.forall₂_cons_right_iff.mp ht with ⟨y, t2, hy, ht2, rfl⟩
      exact ⟨q ++ [y], t2, mem_part_cartesian.mpr ⟨q, y, hq, hy, rfl⟩, ht2, by simp⟩

theorem mem_cartesian_product {α : Type} (L : List (List α)) (l : List α) :
    l ∈ cartesian_product L ↔ L ≠ [] ∧ List.Forall₂ (fun x A => x ∈ A) l L := by
  cases L with
  | nil => simp [cartesian_product]
  | cons A Ls =>
    rw [show cartesian_product (A :: Ls) =
      Ls.foldl part_cartesian (A.map (fun n => [n])) from rfl]
    rw [mem_foldl_part_cartesian]
    constructor
    · rintro ⟨q, t, hq, ht, rfl⟩
      rcases List.mem_map.mp hq with ⟨a, ha, rfl⟩
      exact ⟨List.cons_ne_nil _ _, List.Forall₂.cons ha ht⟩
    · rintro ⟨-, ht⟩
      rcases List.forall₂_cons_right_iff.mp ht with ⟨a, t2, ha, ht2, rfl⟩
      exact ⟨[a], t2, List.mem_map.mpr ⟨a, ha, rfl⟩, ht2, rfl⟩

/-- C8: cartesian_product of zero lists is the empty sequence, not a single
empty tuple; of the single list [x, y] it is [[x], [y]]; and in general a
list belongs to the product of one or more lists exactly when it picks one
element from each input list in order. -/
theorem cartesian_product_spec :
    (∀ α : Type, cartesian_product ([] : List (List α)) = [])
    ∧ (∀ (α : Type) (x y : α), cartesian_product [[x, y]] = [[x], [y]])
    ∧ (∀ (α : Type) (L : List (List α)) (l : List α),
        l ∈ cartesian_product L ↔ L ≠ [] ∧ List.Forall₂ (fun a A => a ∈ A) l L) :=
  ⟨fun _ => rfl, fun _ _ _ => rfl, fun _ => mem_cartesian_product⟩

end SuffixFold

namespace SuffixFold

theorem zipCmp_nil_left (b : List Nat) : zipCmp [] b = none := rfl

theorem zipCmp_nil_right (a : List Nat) : zipCmp a [] = none := by
  cases a <;> rfl

theorem zipCmp_cons (x y : Nat) (a b : List Nat) :
    zipCmp (x :: a) (y :: b) =
      if x > y then some Ordering.gt
      else if x < y then some Ordering.lt
      else zipCmp a b := rfl

theorem zipCmp_ne_eq : ∀ a b : List Nat, zipCmp a b ≠ some Ordering.eq := by
  intro a
  induction a with
  | nil => intro b; rw [zipCmp_nil_left]; exact Option.noConfusion
  | cons x a ih =>
    intro b
    cases b with
    | nil => rw [zipCmp_nil_right]; exact Option.noConfusion
    | cons y b =>
      rw [zipCmp_cons]
      by_cases h1 : x > y
      · rw [if_pos h1]
        intro hc
        injection hc with hc2
        exact Ordering.noConfusion hc2
      · rw [if_neg h1]
        by_cases h2 : x < y
        · rw [if_pos h2]
          intro hc
          injection hc with hc2
          exact Ordering.noConfusion hc2
        · rw [if_neg h2]
          exact ih b

theorem zipCmp_gt_swap : ∀ a b : List Nat, zipCmp a b = some Ordering.gt →
    zipCmp b a = some Ordering.lt := by
  intro a
  induction a with
  | nil => intro b h; rw [zipCmp_nil_left] at h; exact Option.noConfusion h
  | cons x a ih =>
    intro b h
    cases b with
    | nil => rw [zipCmp_nil_right] at h; exact Option.noConfusion h
    | cons y b =>
      rw [zipCmp_cons] at h
      rw [zipCmp_cons]
      by_cases h1 : x > y
      · rw [if_neg (by omega : ¬ y > x), if_pos h1]
      · rw [if_neg h1] at h
        by_cases h2 : x < y
        · rw [if_pos h2] at h
          injection h with hc
          exact Ordering.noConfusion hc
        · rw [if_neg h2] at h
          rw [if_neg (by omega : ¬ y > x), if_neg (by omega : ¬ y < x)]
          exact ih b h

theorem zipCmp_none_eq_of_length : ∀ a b : List Nat, a.length = b.length →
    zipCmp a b = none → a = b := by
  intro a
  induction a with
  | nil =>
    intro b hlen _
    cases b with
    | nil => rfl
    | cons y b => exact absurd hlen (by simp)
  | cons x a ih =>
    intro b hlen h
    cases b with
    | nil => exact absurd hlen (by simp)
    | cons y b =>
      rw [zipCmp_cons] at h
      by_cases h1 : x > y
      · rw [if_pos h1] at h; exact Option.noConfusion h
      · rw [if_neg h1] at h
        by_cases h2 : x < y
        · rw [if_pos h2] at h; exact Option.noConfusion h
        · rw [if_neg h2] at h
          have hxy : x = y := by omega
          have : a = b := ih b (by simpa using hlen) h
          rw [hxy, this]

theorem zipCmp_lt_lex : ∀ a b : List Nat, zipCmp a b = some Ordering.lt →
    List.Lex (· < ·) a b := by
  intro a
  induction a with
  | nil => intro b h; rw [zipCmp_nil_left] at h; exact Option.noConfusion h
  | cons x a ih =>
    intro b h
    cases b with
    | nil => rw [zipCmp_nil_right] at h; exact Option.noConfusion h
    | cons y b =>
      rw [zipCmp_cons] at h
      by_cases h1 : x > y
      · rw [if_pos h1] at h
        injection h with hc
        exact Ordering.noConfusion hc
      · rw [if_neg h1] at h
        by_cases h2 : x < y
        · exact List.Lex.rel h2
        · rw [if_neg h2] at h
          have hxy : x = y := by omega
          subst hxy
          exact List.Lex.cons (ih b h)

theorem zipCmp_trans_aux : ∀ a b c : List Nat, a.sum = b.sum → b.sum = c.sum →
    zipCmp a b ≠ some Ordering.gt → zipCmp b c ≠ some Ordering.gt →
    zipCmp a c ≠ some Ordering.gt := by
  intro a
  induction a with
  | nil =>
    intro b c _ _ _ _
    rw [zipCmp_nil_left]
    exact Option.noConfusion
  | cons x a ih =>
    intro b c hs1 hs2 h1 h2
    cases c with
    | nil =>
      rw [zipCmp_nil_right]
      exact Option.noConfusion
    | cons z c =>
      cases b with
      | nil =>
        have hx : x = 0 ∧ a.sum = 0 := by
          rw [List.sum_cons] at hs1
          simp only [List.sum_nil] at hs1
          omega
        have hz : z = 0 ∧ c.sum = 0 := by
          rw [List.sum_cons] at hs2
          simp only [List.sum_nil] at hs2
          omega
        rw [zipCmp_cons, if_neg (by omega : ¬ x > z), if_neg (by omega : ¬ x < z)]
        exact ih [] c (by simp [hx.2]) (by simp [hz.2])
          (by rw [zipCmp_nil_right]; exact Option.noConfusion)
          (by rw [zipCmp_nil_left]; exact Option.noConfusion)
      | cons y b =>
        rw [zipCmp_cons] at h1 h2
        have hxy : x < y ∨ (x = y ∧ zipCmp a b ≠ some Ordering.gt) := by
          by_cases e1 : x > y
          · rw [if_pos e1] at h1; exact absurd rfl h1
          · by_cases e2 : x < y
            · exact Or.inl e2
            · rw [if_neg e1, if_neg e2] at h1
              exact Or.inr ⟨by omega, h1⟩
        have hyz : y < z ∨ (y = z ∧ zipCmp b c ≠ some Ordering.gt) := by
          by_cases e1 : y > z
          · rw [if_pos e1] at h2; exact absurd rfl h2
          · by_cases e2 : y < z
            · exact Or.inl e2
            · rw [if_neg e1, if_neg e2] at h2
              exact Or.inr ⟨by omega, h2⟩
        have hxley : x ≤ y := by rcases hxy with h | h; omega; omega
        have hylez : y ≤ z := by rcases hyz with h | h; omega; omega
        rw [zipCmp_cons]
        by_cases e1 : x > z
        · omega
        · rw [if_neg e1]
          by_cases e2 : x < z
          · rw [if_pos e2]
            exact fun hc => Ordering.noConfusion (Option.some_inj.mp hc)
          · rw [if_neg e2]
            have hxz : x = z := by omega
            have hxy2 : x = y := by omega
            have hyz2 : y = z := by omega
            rcases hxy with h | h
            · omega
            · rcases hyz with h3 | h3
              · omega
              · refine ih b c ?_ ?_ h.2 h3.2
                · rw [List.sum_cons, List.sum_cons] at hs1; omega
                · rw [List.sum_cons, List.sum_cons] at hs2; omega

theorem cmpTuple_of_sum_gt {a b : List Nat} (h : b.sum < a.sum) :
    cmpTuple a b = some Ordering.gt := by
  unfold cmpTuple
  rw [if_pos h]

theorem cmpTuple_of_sum_lt {a b : List Nat} (h : a.sum < b.sum) :
    cmpTuple a b = some Ordering.lt := by
  unfold cmpTuple
  rw [if_neg (by omega : ¬ a.sum > b.sum), if_pos h]

theorem cmpTuple_eq_zipCmp_of_sum_eq {a b : List Nat} (h : a.sum = b.sum) :
    cmpTuple a b = zipCmp a b := by
  unfold cmpTuple
  rw [if_neg (by omega : ¬ a.sum > b.sum), if_neg (by omega : ¬ a.sum < b.sum)]

theorem cmpTuple_gt_cases {a b : List Nat} (h : cmpTuple a b = some Ordering.gt) :
    b.sum < a.sum ∨ (a.sum = b.sum ∧ zipCmp a b = some Ordering.gt) := by
  unfold cmpTuple at h
  split_ifs at h with h1 h2
  · exact Or.inl h1
  · injection h with hc
    exact Ordering.noConfusion hc
  · exact Or.inr ⟨by omega, h⟩

theorem tupleLE_eq_true_iff (a b : List Nat) :
    tupleLE a b = true ↔ cmpTuple a b ≠ some Ordering.gt := by
  unfold tupleLE
  cases h : cmpTuple a b with
  | none => simp
  | some o => cases o <;> simp

theorem tupleLE_total (a b : List Nat) : tupleLE a b = true ∨ tupleLE b a = true := by
  rw [tupleLE_eq_true_iff, tupleLE_eq_true_iff]
  by_cases hab : cmpTuple a b = some Ordering.gt
  · refine Or.inr ?_
    intro hba
    rcases cmpTuple_gt_cases hab with h1 | h1 <;> rcases cmpTuple_gt_cases hba with h2 | h2
    · omega
    · omega
    · omega
    · have := zipCmp_gt_swap a b h1.2
      rw [this] at h2
      exact Ordering.noConfusion (Option.some_inj.mp h2.2)
  · exact Or.inl hab

theorem tupleLE_trans (a b c : List Nat) (hab : tupleLE a b = true)
    (hbc : tupleLE b c = true) : tupleLE a c = true := by
  rw [tupleLE_eq_true_iff] at hab hbc ⊢
  have hab2 : a.sum ≤ b.sum := by
    by_contra hgt
    exact hab (cmpTuple_of_sum_gt (by omega))
  have hbc2 : b.sum ≤ c.sum := by
    by_contra hgt
    exact hbc (cmpTuple_of_sum_gt (by omega))
  intro hac
  rcases cmpTuple_gt_cases hac with h1 | h1
  · omega
  · have hsums : a.sum = b.sum ∧ b.sum = c.sum := by omega
    have hzab : zipCmp a b ≠ some Ordering.gt := by
      rw [← cmpTuple_eq_zipCmp_of_sum_eq hsums.1]
      exact hab
    have hzbc : zipCmp b c ≠ some Ordering.gt := by
      rw [← cmpTuple_eq_zipCmp_of_sum_eq hsums.2]
      exact hbc
    exact zipCmp_trans_aux a b c hsums.1 hsums.2 hzab hzbc h1.2

end SuffixFold

namespace SuffixFold

theorem part_cartesian_eq_product_map {α : Type} (a : List (List α)) (b : List α) :
    part_cartesian a b = (a ×ˢ b).map (fun p => p.1 ++ [p.2]) := by
  induction a with
  | nil => rfl
  | cons xs rest ih =>
    rw [show part_cartesian (xs :: rest) b =
      b.map (fun y => xs ++ [y]) ++ part_cartesian rest b from rfl]
    rw [List.product_cons, List.map_append, List.map_map, ih]
    rfl

theorem concat_pair_injective {α : Type} :
    Function.Injective (fun p : List α × α => p.1 ++ [p.2]) := by
  rintro ⟨q1, y1⟩ ⟨q2, y2⟩ h
  obtain ⟨h1, h2⟩ := List.append_inj' h rfl
  injection h2 with hy
  exact Prod.ext h1 hy

theorem nodup_part_cartesian {α : Type} {a : List (List α)} {b : List α}
    (ha : a.Nodup) (hb : b.Nodup) : (part_cartesian a b).Nodup := by
  rw [part_cartesian_eq_product_map]
  exact (ha.product hb).map concat_pair_injective

theorem nodup_foldl_part_cartesian {α : Type} (Ls : List (List α)) :
    ∀ init : List (List α), init.Nodup → (∀ A ∈ Ls, A.Nodup) →
      (Ls.foldl part_cartesian init).Nodup := by
  induction Ls with
  | nil => exact fun init h _ => h
  | cons B Ls ih =>
    intro init hinit hall
    rw [List.foldl_cons]
    exact ih _ (nodup_part_cartesian hinit (hall B (List.mem_cons_self _ _)))
      (fun A hA => hall A (List.mem_cons_of_mem _ hA))

theorem nodup_cartesian_product {α : Type} {L : List (List α)}
    (h : ∀ A ∈ L, A.Nodup) : (cartesian_product L).Nodup := by
  cases L with
  | nil => exact List.nodup_nil
  | cons A Ls =>
    have hinj : Function.Injective (fun n : α => [n]) := by
      intro a b hab
      injection hab
    exact nodup_foldl_part_cartesian Ls _
      ((h A (List.mem_cons_self _ _)).map hinj)
      (fun B hB => h B (List.mem_cons_of_mem _ hB))

/-- C9: index_array always produces pairwise-distinct tuples of uniform
length dims.length; consequently, between any two distinct tuples of
index_array, the order_by_distance comparator always finds a difference and
its unreachable panicking fall-through (modelled by none) is never taken. -/
theorem index_array_no_panic (dims : List Nat) :
    (index_array dims).Nodup
    ∧ (∀ a ∈ index_array dims, a.length = dims.length)
    ∧ (∀ a b, a ∈ index_array dims → b ∈ index_array dims → a ≠ b →
        cmpTuple a b ≠ none) := by
  have hlen : ∀ a ∈ index_array dims, a.length = dims.length := by
    intro a ha
    rcases (mem_cartesian_product (dims.map (fun x => List.range x)) a).mp ha with ⟨-, hf⟩
    simpa using hf.length_eq
  refine ⟨?_, hlen, ?_⟩
  · refine nodup_cartesian_product ?_
    intro A hA
    rcases List.mem_map.mp hA with ⟨d, -, rfl⟩
    exact List.nodup_range _
  · intro a b ha hb hne hnone
    have hz : zipCmp a b = none := by
      rcases Nat.lt_trichotomy a.sum b.sum with hs | hs | hs
      · rw [cmpTuple_of_sum_lt hs] at hnone
        exact Option.noConfusion hnone
      · rw [cmpTuple_eq_zipCmp_of_sum_eq hs] at hnone
        exact hnone
      · rw [cmpTuple_of_sum_gt hs] at hnone
        exact Option.noConfusion hnone
    exact hne (zipCmp_none_eq_of_length a b ((hlen a ha).trans (hlen b hb).symm) hz)

/-- Witness for C9 at dims = [2, 2] and the distinct tuples [0, 1], [1, 0]. -/
theorem index_array_no_panic_witness : cmpTuple [0, 1] [1, 0] ≠ none :=
  (index_array_no_panic [2, 2]).2.2 [0, 1] [1, 0] (by decide) (by decide) (by decide)

/-- Spec-side ordering on coordinate tuples, following the wording of the
order_by_distance contract: ascending sum of coordinates first, ties broken
by ascending lexicographic comparison of the coordinate sequences (first
differing coordinate decides). -/
def distLex (a b : List Nat) : Prop :=
  a.sum < b.sum ∨ (a.sum = b.sum ∧ List.Lex (· < ·) a b)

/-- C2: on every list of pairwise-distinct equal-length tuples,
order_by_distance returns a permutation of its input that is sorted by
ascending coordinate sum with ties broken lexicographically; in particular
on index_array [3, 3] it returns the anti-diagonal enumeration. -/
theorem order_by_distance_spec :
    (∀ (l : List (List Nat)) (n : Nat), (∀ a ∈ l, a.length = n) → l.Nodup →
        (order_by_distance l).Perm l ∧ (order_by_distance l).Pairwise distLex)
    ∧ order_by_distance (index_array [3, 3]) =
        [[0, 0], [0, 1], [1, 0], [0, 2], [1, 1], [2, 0], [1, 2], [2, 1], [2, 2]] := by
  refine ⟨fun l n hlen hnd => ?_, by decide⟩
  haveI : IsTrans (List Nat) (fun a b => tupleLE a b = true) :=
    ⟨fun a b c => tupleLE_trans a b c⟩
  haveI : IsTotal (List Nat) (fun a b => tupleLE a b = true) :=
    ⟨fun a b => tupleLE_total a b⟩
  have hperm : (order_by_distance l).Perm l := List.perm_insertionSort _ l
  refine ⟨hperm, ?_⟩
  have hsorted : (order_by_distance l).Pairwise (fun a b => tupleLE a b = true) :=
    List.sorted_insertionSort _ l
  have hnd2 : (order_by_distance l).Nodup := hperm.nodup_iff.mpr hnd
  refine (hsorted.and hnd2).imp_of_mem ?_
  intro a b ha hb hab
  obtain ⟨hle, hne⟩ := hab
  have hla : a.length = n := hlen a (hperm.subset ha)
  have hlb : b.length = n := hlen b (hperm.subset hb)
  rw [tupleLE_eq_true_iff] at hle
  rcases Nat.lt_trichotomy a.sum b.sum with hs | hs | hs
  · exact Or.inl hs
  · refine Or.inr ⟨hs, ?_⟩
    have hz : zipCmp a b ≠ some Ordering.gt := by
      rw [← cmpTuple_eq_zipCmp_of_sum_eq hs]
      exact hle
    have hzn : zipCmp a b ≠ none := fun h0 =>
      hne (zipCmp_none_eq_of_length a b (hla.trans hlb.symm) h0)
    cases hz2 : zipCmp a b with
    | none => exact absurd hz2 hzn
    | some o =>
      cases o with
      | lt => exact zipCmp_lt_lex a b hz2
      | eq => exact absurd hz2 (zipCmp_ne_eq a b)
      | gt => exact absurd hz2 hz
  · exact absurd (cmpTuple_of_sum_gt hs) hle

/-- Witness for C2 on a concrete two-element list of distinct tuples. -/
theorem order_by_distance_spec_witness :
    (order_by_distance [[0, 1], [1, 0]]).Perm [[0, 1], [1, 0]] ∧
      (order_by_distance [[0, 1], [1, 0]]).Pairwise distLex :=
  order_by_distance_spec.1 [[0, 1], [1, 0]] 2 (by decide) (by decide)

end SuffixFold
